import Mathlib

/-!
# Verification of the DangDishes recipe backend

A shallow embedding of the three Python source files of the
`CS160Project_DangDishes` repository (`backend/database.py`,
`backend/scraper.py`, `backend/app.py`) together with proofs about the
History Store merge/dedup/eviction algorithm, the candidate extractor and
the detail extractor.

Modelling conventions:
* Python JSON-like values are modelled by `JVal` (null, string, integer,
  boolean).  The recipe dictionaries flowing through `add_to_history` come
  from the `Recipe` pydantic model of `app.py`, whose fields are all
  scalars (strings, ints, bools or `None`), so no array/object case is
  needed.
* A Python `dict` is modelled as an association list `Dict`; lookup returns
  the first binding, update replaces the first binding in place (which
  matches Python semantics because real Python dicts never hold a key
  twice — theorems that need it take a `dkeysNodup` hypothesis).
* `datetime.now().isoformat()` is modelled as an abstract integer timestamp
  supplied to `add_to_history` by the caller; successive wall-clock reads
  are nondecreasing, which the reachability relation records as a
  hypothesis on the supplied timestamp.
* Python expressions that can raise (`history[i].get('cookCount', 1) + 1`
  raises `TypeError` on a non-numeric stored value) are modelled with
  `Option`; `none` is the exception propagating out of the function before
  the file write, leaving the persisted store unchanged.
-/

namespace DangDishes

/-- A scalar JSON value, as stored in `recipe_history.json` and passed in
request bodies.  Python `True + 1 = 2` style bool/int arithmetic is kept
where the source can hit it (`incCookCount`). -/
inductive JVal where
  | null : JVal
  | str : String → JVal
  | num : Int → JVal
  | bool : Bool → JVal
deriving DecidableEq, Repr

/-- Python truthiness of a scalar value (`bool(v)`). -/
def JVal.truthy : JVal → Bool
  | .null => false
  | .str s => !(s == "")
  | .num n => !(n == 0)
  | .bool b => b

/-- A Python dict, as an association list of string keys to scalar values. -/
abbrev Dict := List (String × JVal)

/-- Python `d.get(k)`: the first binding of `k`, or `None`. -/
def dget (d : Dict) (k : String) : Option JVal :=
  (d.find? (fun p => p.1 == k)).map (fun p => p.2)

/-- Python `d[k] = v`: replace the first binding of `k` in place, or
append. -/
def dset : Dict → String → JVal → Dict
  | [], k, v => [(k, v)]
  | (k', v') :: rest, k, v =>
    if k' == k then (k, v) :: rest else (k', v') :: dset rest k v

/-- The keys of a dict, in order. -/
def dkeys (d : Dict) : List String := d.map (fun p => p.1)

/-- A dict whose keys are pairwise distinct — true of every real Python
dict. -/
def dkeysNodup (d : Dict) : Prop := (dkeys d).Nodup

instance (d : Dict) : Decidable (dkeysNodup d) := by
  unfold dkeysNodup
  infer_instance

/-- Truthiness of `d.get(k)` (`None` is falsy). -/
def truthyOpt : Option JVal → Bool
  | none => false
  | some v => v.truthy

/-! ## `backend/database.py` -/

/-- The loop body of the duplicate scan of `add_to_history`
(database.py lines 22–31): does the stored entry `r` match the incoming
`recipe`?  Match by URL when the incoming entry has a truthy `url`,
otherwise by `(name, source)` when both sides lack a truthy `url`. -/
def matchesEntry (recipe r : Dict) : Bool :=
  (truthyOpt (dget recipe "url") && (dget r "url" == dget recipe "url"))
    || (!truthyOpt (dget recipe "url") && !truthyOpt (dget r "url")
        && (dget r "name" == dget recipe "name")
        && (dget r "source" == dget recipe "source"))

/-- The identity key of an entry: its `url` value when truthy, else its
`(name, source)` pair.  `matchesEntry` compares exactly these
(`matchesEntry_iff_identKey`). -/
def identKey (d : Dict) : Option JVal ⊕ (Option JVal × Option JVal) :=
  if truthyOpt (dget d "url") then Sum.inl (dget d "url")
  else Sum.inr (dget d "name", dget d "source")

/-- The scan for `existing_index` (database.py lines 20–31): index and
value of the first stored entry matching the incoming recipe. -/
def findExisting (recipe : Dict) : List Dict → Option (Nat × Dict)
  | [] => none
  | e :: rest =>
    if matchesEntry recipe e then some (0, e)
    else (findExisting recipe rest).map (fun p => (p.1 + 1, p.2))

/-- The increment `history[existing_index].get('cookCount', 1) + 1`
(database.py line
36).  Python `bool` is an `int` (`True + 1 = 2`); a string or `None`
stored value raises `TypeError`, modelled as `none`. -/
def incCookCount (e : Dict) : Option Int :=
  match dget e "cookCount" with
  | none => some 2
  | some (.num n) => some (n + 1)
  | some (.bool b) => some ((if b then 1 else 0) + 1)
  | some .null => none
  | some (.str _) => none

/-- The keys the merge loop refuses to overwrite (database.py line 39). -/
def excludedKeys : List String := ["lastCooked", "cookCount", "isHistory"]

/-- The merge loop of `add_to_history` (database.py lines 38–40): every
binding of the incoming recipe except the excluded keys overwrites the
stored entry, null values included. -/
def overlay (base recipe : Dict) : Dict :=
  recipe.foldl
    (fun acc p => if p.1 ∈ excludedKeys then acc else dset acc p.1 p.2) base

/-- The merge branch of `add_to_history` (database.py lines 33–43) applied
to the matched entry `e`: set `lastCooked` to now, increment `cookCount`,
then overlay the incoming fields.  `none` models the `TypeError` of a
non-numeric stored `cookCount`. -/
def mergeEntry (e recipe : Dict) (now : Int) : Option Dict :=
  (incCookCount e).map (fun n =>
    overlay (dset (dset e "lastCooked" (.num now)) "cookCount" (.num n)) recipe)

/-- The insert branch of `add_to_history` (database.py lines 46–48):
the incoming recipe mutated in place with `lastCooked`, `cookCount = 1`
and `isHistory = true`. -/
def prepareNew (recipe : Dict) (now : Int) : Dict :=
  dset (dset (dset recipe "lastCooked" (.num now)) "cookCount" (.num 1))
    "isHistory" (.bool true)

/-- Function `add_to_history` (database.py lines 14–57) on an explicit
store value.
Returns the persisted store (truncated to 50) and the value of the
`return recipe` statement; `none` models an uncaught exception (store file
unchanged).  In the merge branch the source mutates
`history[existing_index]` in place, pops it and re-inserts it at the
front, which on values is `merged :: history.eraseIdx i`. -/
def add_to_history (history : List Dict) (recipe : Dict) (now : Int) :
    Option (List Dict × Dict) :=
  match findExisting recipe history with
  | some ie =>
    (mergeEntry ie.2 recipe now).map
      (fun m => ((m :: history.eraseIdx ie.1).take 50, recipe))
  | none =>
    let p := prepareNew recipe now
    some ((p :: history).take 50, p)

/-- The persisted-store state: `none` when `recipe_history.json` does not
exist, `some s` when it holds the sequence `s`. -/
abbrev StoreState := Option (List Dict)

/-- Function `get_history` (database.py lines 7–12): an absent file reads
as `[]`. -/
def get_history (st : StoreState) : List Dict := st.getD []

/-- Function `clear_history` (database.py lines 59–63): removes the
file. -/
def clear_history (_st : StoreState) : StoreState := none

/-- The `lastCooked` field as a timestamp, when the entry holds a numeric
one. -/
def lcNum (d : Dict) : Option Int :=
  match dget d "lastCooked" with
  | some (.num t) => some t
  | _ => none

/-- Store states reachable through the three operations, starting from an
absent store.  `Read` does not change the state; an `add` reads the store
through `get_history`, is supplied a wall-clock timestamp no smaller than
any stored one (successive `datetime.now()` reads are nondecreasing), and
persists the new sequence only when no exception occurred. -/
inductive Reachable : StoreState → Prop where
  | init : Reachable none
  | clear (st : StoreState) : Reachable st → Reachable (clear_history st)
  | add (st : StoreState) (recipe : Dict) (now : Int)
      (s' : List Dict) (ret : Dict) :
      Reachable st →
      dkeysNodup recipe →
      (∀ e ∈ get_history st, ∀ t, lcNum e = some t → t ≤ now) →
      add_to_history (get_history st) recipe now = some (s', ret) →
      Reachable (some s')

/-! ## `backend/scraper.py`

The scraping functions are modelled on an already-parsed page: each
BeautifulSoup element that a selector can return is represented by the
strings the source reads off it (its `get_text` results and relevant
attributes), in document order.  HTTP fetching, `time.sleep` and `print`
calls have no bearing on the extracted values and are not modelled. -/

/-- Python's substring test `needle in hay` on character lists. -/
def containsSub (hay needle : List Char) : Bool :=
  match hay with
  | [] => needle.isEmpty
  | _ :: rest => needle.isPrefixOf hay || containsSub rest needle

/-- Python's `needle in hay` on strings. -/
def strContains (hay needle : String) : Bool :=
  containsSub hay.toList needle.toList

/-- Python `s.lower()` (ASCII letters). -/
def pyLower (s : String) : String := ⟨s.data.map Char.toLower⟩

/-- Python `s.strip()`: whitespace removed from both ends. -/
def pyStrip (s : String) : String :=
  ⟨((s.data.dropWhile Char.isWhitespace).reverse.dropWhile
    Char.isWhitespace).reverse⟩

/-- Python `s.split(sep)` for a one-character separator, on characters:
splitting always yields at least one (possibly empty) group, and one
extra group per separator occurrence. -/
def splitChar (c : Char) : List Char → List (List Char)
  | [] => [[]]
  | x :: rest =>
    if x = c then [] :: splitChar c rest
    else
      match splitChar c rest with
      | [] => [[x]]
      | g :: gs => (x :: g) :: gs

/-- Python `s.split(sep)` for a one-character separator. -/
def pySplit (c : Char) (s : String) : List String :=
  (splitChar c s.data).map (fun l => ⟨l⟩)

/-- Python `s.replace(old, new)` for one-character arguments. -/
def pyReplaceChar (s : String) (old new : Char) : String :=
  ⟨s.data.map (fun ch => if ch = old then new else ch)⟩

/-- Python `s.startswith(pre)`. -/
def pyStartsWith (s pre : String) : Bool := pre.data.isPrefixOf s.data

/-- Python `str.title()` on the characters of an ASCII string: a letter is
uppercased after a non-letter and lowercased after a letter. -/
def pyTitleGo : Bool → List Char → List Char
  | _, [] => []
  | prevAlpha, c :: rest =>
    (if c.isAlpha then (if prevAlpha then c.toLower else c.toUpper) else c)
      :: pyTitleGo c.isAlpha rest

/-- Python `s.title()` (ASCII letters). -/
def pyTitle (s : String) : String := ⟨pyTitleGo false s.toList⟩

/-- The expression `link.split('/')[-2]` (scraper.py lines 54 and 81).
When the link
contains a `/` the split has at least two parts, so the Python negative
index cannot raise; `getD` never supplies its default there. -/
def secondToLastSeg (link : String) : String :=
  let parts := pySplit '/' link
  (parts.get? (parts.length - 2)).getD ""

/-- The `recipe_id` computation (scraper.py line 54): second-to-last path
segment, or
`str(hash(link))` when the link has no slash.  Python's `hash` is
modelled by Lean's string hash; under the `/recipe/` guard of the loop
the hash branch is unreachable. -/
def computeId (link : String) : String :=
  if strContains link "/" then secondToLastSeg link
  else toString link.hash

/-- One candidate anchor of the search-results page: its `href`, the raw
`.text` of an optional `span.card__title` child, the raw `.text` of an
optional `span.card__title-text` child, its own `get_text(strip=True)`,
and the outcomes of the two `random.randint` calls that synthesize the
mock `time` and `dishes` fields. -/
structure Card where
  href : String
  titleSpan : Option String
  titleSpanAlt : Option String
  fullText : String
  timeRand : Int
  dishesRand : Int
deriving DecidableEq, Repr

/-- Is an optional string falsy (`not title`): absent or empty? -/
def falsyOptStr : Option String → Bool
  | none => true
  | some s => s == ""

/-- The title cascade for one card (scraper.py lines 62–81). -/
def resolveTitle (c : Card) (link : String) : String :=
  let t1 : Option String := c.titleSpan.map pyStrip
  let t2 : Option String :=
    if falsyOptStr t1 then
      match c.titleSpanAlt with
      | some s => some (pyStrip s)
      | none => t1
    else t1
  let t3 : Option String := if falsyOptStr t2 then some c.fullText else t2
  if falsyOptStr t3 || ((t3.getD "").length < 3) then
    pyTitle (pyReplaceChar (secondToLastSeg link) '-' ' ')
  else t3.getD ""

/-- A `RecipeSummary` as appended by `scrape_allrecipes`
(scraper.py lines 84–92). -/
structure SRecipe where
  id : String
  name : String
  url : String
  time : Int
  dishes : Int
  isHistory : Bool
  source : String
deriving DecidableEq, Repr

/-- The dictionary literal of scraper.py lines 84–92. -/
def mkSRecipe (recipe_id title link : String) (c : Card) : SRecipe :=
  { id := recipe_id
    name := title
    url := if pyStartsWith link "http" then link
           else "https://www.allrecipes.com" ++ link
    time := c.timeRand
    dishes := c.dishesRand
    isHistory := false
    source := "AllRecipes" }

/-- The card loop of `scrape_allrecipes` (scraper.py lines 44–99): skip
cards without a recipe link, dedup ids through `seen_ids` (an id is marked
seen before the title check), accept titles longer than 3 characters, and
break once 15 recipes are collected. -/
def processCards : List Card → List String → List SRecipe → List SRecipe
  | [], _, recipes => recipes
  | card :: rest, seen_ids, recipes =>
    let link := card.href
    if link == "" || !strContains link "/recipe/" then
      processCards rest seen_ids recipes
    else
      let recipe_id := computeId link
      if seen_ids.contains recipe_id then
        processCards rest seen_ids recipes
      else
        let seen' := recipe_id :: seen_ids
        let title := resolveTitle card link
        if title ≠ "" ∧ title.length > 3 then
          let recipes' := recipes ++ [mkSRecipe recipe_id title link card]
          if 15 ≤ recipes'.length then recipes'
          else processCards rest seen' recipes'
        else processCards rest seen' recipes

/-- A parsed search-results page: the anchors returned by the three
cascading selectors of scraper.py lines 32–40. -/
structure SearchPage where
  cards1 : List Card
  cards2 : List Card
  cards3 : List Card
deriving Repr

/-- The selector cascade (scraper.py lines 32–40): first selector with
any matches wins. -/
def selectedCards (p : SearchPage) : List Card :=
  if p.cards1 ≠ [] then p.cards1
  else if p.cards2 ≠ [] then p.cards2
  else p.cards3

/-- Function `scrape_allrecipes` (scraper.py lines 6–102) after a
successful fetch:
process at most the first 20 raw cards with an empty dedup set. -/
def scrape_allrecipes (p : SearchPage) : List SRecipe :=
  processCards ((selectedCards p).take 20) [] []

/-- A parsed recipe page, as read by `scrape_recipe_details`: the
`get_text(strip=True)` of the elements each selector returns (in document
order), the page's whole lowered text (`soup.get_text().lower()`), and the
time-classed elements' texts. -/
structure RecipePage where
  ingredientsM1 : List String
  ingredientsM2 : List String
  ingredientsM3 : List String
  pageText : String
  instructionTexts : List String
  timeTexts : List String
deriving Repr

/-- Ingredient method 1 (scraper.py lines 133–140): structured list
items, texts kept when truthy and longer than 1. -/
def ingredientsAfterM1 (p : RecipePage) : List String :=
  if p.ingredientsM1 ≠ [] then
    p.ingredientsM1.filter (fun t => !(t == "") && t.length > 1)
  else []

/-- Ingredient method 2 (scraper.py lines 142–148), tried only when the
list is still empty: any truthy (non-empty) text is kept. -/
def ingredientsAfterM2 (p : RecipePage) : List String :=
  if ingredientsAfterM1 p = [] then
    p.ingredientsM2.filter (fun t => !(t == ""))
  else ingredientsAfterM1 p

/-- The ingredient cascade (scraper.py lines 130–156): method 3 (texts
longer than 2) only when methods 1 and 2 produced nothing. -/
def extractIngredients (p : RecipePage) : List String :=
  if ingredientsAfterM2 p = [] then
    p.ingredientsM3.filter (fun t => !(t == "") && t.length > 2)
  else ingredientsAfterM2 p

/-- The fixed tool vocabulary (scraper.py lines 159–164). -/
def common_tools : List String :=
  ["pan", "pot", "bowl", "spatula", "spoon", "knife", "cutting board",
   "whisk", "mixer", "oven", "stove", "blender", "food processor",
   "baking sheet", "measuring cup", "measuring spoon", "colander",
   "strainer", "grater", "peeler", "tongs", "ladle"]

/-- The tool scan (scraper.py lines 166–171) over the lowered page text. -/
def extractTools (recipe_text : String) : List String :=
  common_tools.foldl
    (fun tools tool =>
      if strContains recipe_text tool
          && !((tools.map pyLower).contains (pyLower tool)) then
        tools ++ [pyTitle tool]
      else tools) []

/-- The loop body of the timing scan (scraper.py lines 189–196): the
element's text is lowered and assigned to the `prep`/`cook`/`total`
bucket by the first matching substring of the `if`/`elif` chain; an
assignment overwrites whatever the bucket held. -/
def timesStep (acc : Option String × Option String × Option String)
    (raw : String) : Option String × Option String × Option String :=
  let text := pyLower raw
  if strContains text "prep" then (some text, acc.2.1, acc.2.2)
  else if strContains text "cook" then (acc.1, some text, acc.2.2)
  else if strContains text "total" then (acc.1, acc.2.1, some text)
  else acc

/-- The timing scan (scraper.py lines 181–196) over the time-classed
elements' texts, all three buckets starting empty. -/
def extractTimes (texts : List String) :
    Option String × Option String × Option String :=
  texts.foldl timesStep (none, none, none)

/-- The last element of `l` when there is one, else `d`: the value a
repeatedly overwritten variable holds after a loop. -/
def orDefault (l : List String) (d : Option String) : Option String :=
  match l.getLast? with
  | some x => some x
  | none => d

/-- The `recipe_details` record (scraper.py lines 198–206). -/
structure RecipeDetails where
  ingredients : List String
  tools : List String
  instructions : List String
  prepTime : Option String
  cookTime : Option String
  totalTime : Option String
  servings : Option String
deriving Repr

/-- Function `scrape_recipe_details` (scraper.py lines 113–209) after a
successful
fetch: ingredients capped at 20, tools at 10, instructions (texts longer
than 10) at 30; `servings` is never populated. -/
def scrape_recipe_details (p : RecipePage) : RecipeDetails :=
  let ingredients := extractIngredients p
  let tools := extractTools p.pageText
  let instructions :=
    p.instructionTexts.filter (fun t => !(t == "") && t.length > 10)
  let times := extractTimes p.timeTexts
  { ingredients := if ingredients ≠ [] then ingredients.take 20 else []
    tools := if tools ≠ [] then tools.take 10 else []
    instructions := if instructions ≠ [] then instructions.take 30 else []
    prepTime := times.1
    cookTime := times.2.1
    totalTime := times.2.2
    servings := none }

/-- Function `search_recipes` (scraper.py lines 217–232): the
single-source search
truncated to `max_results`. -/
def search_recipes (p : SearchPage) (max_results : Nat) : List SRecipe :=
  (scrape_allrecipes p).take max_results

/-! ## Derived notions used by the statements -/

/-- A sequence of `add_to_history` calls, each with its own timestamp,
threading the persisted store; `none` as soon as one call raises. -/
def addAll : List (Dict × Int) → List Dict → Option (List Dict)
  | [], s => some s
  | rt :: rest, s =>
    match add_to_history s rt.1 rt.2 with
    | some s' => addAll rest s'.1
    | none => none

/-- Entry `a` was last cooked no earlier than `b` (on entries carrying
numeric
`lastCooked` timestamps). -/
def lcGE (a b : Dict) : Prop :=
  ∀ x y, lcNum a = some x → lcNum b = some y → y ≤ x

/-- The History Store invariant of spec §3: pairwise distinct identity
keys, at most 50 entries, and entries ordered by recency of `lastCooked`
(every entry carries a timestamp and they are nonincreasing front to
back). -/
def histInvariant (s : List Dict) : Prop :=
  (s.map identKey).Nodup ∧ s.length ≤ 50 ∧
    (∀ e ∈ s, (lcNum e).isSome) ∧ s.Pairwise lcGE

/-- A stored entry used by the counterexamples: url `"u"`, cooked once. -/
def cexEntry : Dict :=
  [("url", JVal.str "u"), ("name", JVal.str "Old"),
   ("lastCooked", JVal.num 0), ("cookCount", JVal.num 1),
   ("isHistory", JVal.bool true)]

/-- An incoming recipe with the same url `"u"`. -/
def cexRecipe : Dict := [("url", JVal.str "u"), ("name", JVal.str "New")]

/-- A recipe page whose time-classed elements mention "prep" twice. -/
def cexTimePage : RecipePage :=
  { ingredientsM1 := [], ingredientsM2 := [], ingredientsM3 := []
    pageText := "", instructionTexts := []
    timeTexts := ["prep a", "prep b"] }

/-- A recipe page on which only ingredient strategy 2 fires, with a
single one-character candidate. -/
def cexIngredientPage : RecipePage :=
  { ingredientsM1 := [], ingredientsM2 := ["x"], ingredientsM3 := []
    pageText := "", instructionTexts := [], timeTexts := [] }

/-- A search page with two cards sharing one recipe id. -/
def cexSearchPage : SearchPage :=
  { cards1 := [⟨"/recipe/123/apple-pie/", none, none, "Apple Pie Card",
      20, 3⟩,
      ⟨"/recipe/123/apple-pie/", some "Apple Pie", none, "", 25, 4⟩]
    cards2 := []
    cards3 := [] }

/-! ## Dictionary lemmas -/

theorem dget_cons (k' : String) (v' : JVal) (d : Dict) (k : String) :
    dget ((k', v') :: d) k = if k' == k then some v' else dget d k := by
  simp only [dget, List.find?]
  cases h : k' == k <;> simp [h]

theorem dkeys_cons (k : String) (v : JVal) (d : Dict) :
    dkeys ((k, v) :: d) = k :: dkeys d := rfl

theorem dkeysNodup_cons {k : String} {v : JVal} {d : Dict}
    (h : dkeysNodup ((k, v) :: d)) : k ∉ dkeys d ∧ dkeysNodup d := by
  have := h
  rw [dkeysNodup, dkeys_cons, List.nodup_cons] at this
  exact this

theorem dget_dset_self (d : Dict) (k : String) (v : JVal) :
    dget (dset d k v) k = some v := by
  induction d with
  | nil => simp [dget, dset, List.find?]
  | cons p rest ih =>
    rcases p with ⟨k', v'⟩
    simp only [dset]
    by_cases h : k' = k
    · simp [dget_cons, h]
    · have hb : ¬ (k' == k) := by simpa using h
      simp only [hb, Bool.false_eq_true, if_false]
      rw [dget_cons]
      simp only [hb, Bool.false_eq_true, if_false]
      exact ih

theorem dget_dset_ne (d : Dict) (k k' : String) (v : JVal) (h : k' ≠ k) :
    dget (dset d k v) k' = dget d k' := by
  induction d with
  | nil =>
    have hb : ¬ (k == k') := by simpa using fun h' => h h'.symm
    simp [dget, dset, List.find?, hb]
  | cons p rest ih =>
    rcases p with ⟨k0, v0⟩
    simp only [dset]
    by_cases hk : k0 = k
    · have hb : ¬ (k == k') := by simpa using fun h' => h h'.symm
      have hb0 : ¬ (k0 == k') := by
        simpa using fun h' => h (hk ▸ h').symm
      have hkb : (k0 == k) = true := by simpa using hk
      rw [if_pos hkb, dget_cons, dget_cons]
      simp [hb, hb0]
    · have hkb : ¬ (k0 == k) := by simpa using hk
      simp only [hkb, Bool.false_eq_true, if_false]
      rw [dget_cons, dget_cons, ih]

theorem dget_eq_none_of_not_mem (d : Dict) (k : String)
    (h : k ∉ dkeys d) : dget d k = none := by
  induction d with
  | nil => simp [dget, List.find?]
  | cons p rest ih =>
    rcases p with ⟨k0, v0⟩
    rw [dkeys_cons, List.mem_cons] at h
    push_neg at h
    rw [dget_cons]
    have hb : ¬ (k0 == k) := by simpa using fun h' => h.1 h'.symm
    simp only [hb, Bool.false_eq_true, if_false]
    exact ih h.2

theorem overlay_cons (base : Dict) (k : String) (v : JVal) (rest : Dict) :
    overlay base ((k, v) :: rest) =
      overlay (if k ∈ excludedKeys then base else dset base k v) rest := by
  simp [overlay, List.foldl_cons]

/-- The merge loop leaves the three excluded keys of the base entry
untouched. -/
theorem overlay_dget_excluded (base r : Dict) (k : String)
    (hk : k ∈ excludedKeys) : dget (overlay base r) k = dget base k := by
  induction r generalizing base with
  | nil => simp [overlay]
  | cons p rest ih =>
    rcases p with ⟨k', v⟩
    rw [overlay_cons]
    by_cases h : k' ∈ excludedKeys
    · simp only [h, if_true]
      exact ih base
    · simp only [h, if_false]
      rw [ih]
      exact dget_dset_ne base k' k v (fun he => h (he ▸ hk))

/-- The frame condition of the merge loop: on a non-excluded key the
merged entry holds the incoming value when the incoming recipe binds the
key (null included), and the base entry's value otherwise. -/
theorem overlay_dget (base r : Dict) (k : String)
    (hr : dkeysNodup r) (hk : k ∉ excludedKeys) :
    dget (overlay base r) k =
      if (dget r k).isSome then dget r k else dget base k := by
  induction r generalizing base with
  | nil => simp [overlay, dget, List.find?]
  | cons p rest ih =>
    rcases p with ⟨k', v⟩
    have hr' : dkeysNodup rest := (dkeysNodup_cons hr).2
    have hk'notin : k' ∉ dkeys rest := (dkeysNodup_cons hr).1
    rw [overlay_cons]
    by_cases he : k = k'
    · subst he
      have hrest : dget rest k = none := dget_eq_none_of_not_mem rest k hk'notin
      have hkx : k ∉ excludedKeys := hk
      simp only [hkx, if_false]
      rw [ih (dset base k v) hr', hrest]
      simp [dget_cons, dget_dset_self]
    · have hne : ¬ (k == k') := by simpa using he
      have hcons : dget ((k', v) :: rest) k = dget rest k := by
        rw [dget_cons]
        have : ¬ (k' == k) := by simpa using fun h' => he h'.symm
        simp [this]
      by_cases hx : k' ∈ excludedKeys
      · simp only [hx, if_true]
        rw [ih base hr', hcons]
      · simp only [hx, if_false]
        rw [ih (dset base k' v) hr', hcons]
        by_cases hs : (dget rest k).isSome
        · simp [hs]
        · simp only [hs, if_false]
          exact dget_dset_ne base k' k v he

/-! ## Identity-key lemmas -/

theorem identKey_dset_other (d : Dict) (k : String) (v : JVal)
    (h1 : k ≠ "url") (h2 : k ≠ "name") (h3 : k ≠ "source") :
    identKey (dset d k v) = identKey d := by
  unfold identKey
  rw [dget_dset_ne d k "url" v (Ne.symm h1),
    dget_dset_ne d k "name" v (Ne.symm h2),
    dget_dset_ne d k "source" v (Ne.symm h3)]

theorem identKey_prepareNew (r : Dict) (t : Int) :
    identKey (prepareNew r t) = identKey r := by
  unfold prepareNew
  rw [identKey_dset_other _ _ _ (by decide) (by decide) (by decide),
    identKey_dset_other _ _ _ (by decide) (by decide) (by decide),
    identKey_dset_other _ _ _ (by decide) (by decide) (by decide)]

/-- The duplicate scan of `add_to_history` matches a stored entry exactly
when it has the same identity key as the incoming recipe. -/
theorem matchesEntry_iff (r e : Dict) :
    matchesEntry r e = true ↔ identKey r = identKey e := by
  by_cases hu : truthyOpt (dget r "url") = true
  · by_cases he : truthyOpt (dget e "url") = true
    · simp only [matchesEntry, identKey, hu, he, if_true, Bool.true_and,
        Bool.not_true, Bool.false_and, Bool.or_false]
      constructor
      · intro h
        have h' : dget e "url" = dget r "url" := by simpa using h
        rw [h']
      · intro h
        have h' : dget r "url" = dget e "url" := Sum.inl.inj h
        simp [h']
    · have hef : truthyOpt (dget e "url") = false := by
        simpa using he
      constructor
      · intro h
        exfalso
        simp only [matchesEntry, hu, hef, Bool.true_and, Bool.not_true,
          Bool.false_and, Bool.and_false, Bool.or_false] at h
        have h' : dget e "url" = dget r "url" := by simpa using h
        rw [h'] at hef
        rw [hu] at hef
        exact Bool.noConfusion hef
      · intro h
        exfalso
        simp only [identKey, hu, hef, if_true, Bool.false_eq_true,
          if_false] at h
        exact Sum.inl_ne_inr h
  · have huf : truthyOpt (dget r "url") = false := by simpa using hu
    by_cases he : truthyOpt (dget e "url") = true
    · constructor
      · intro h
        exfalso
        simp only [matchesEntry, huf, he, Bool.false_and, Bool.not_true,
          Bool.not_false, Bool.true_and, Bool.false_or, Bool.false_and] at h
        exact Bool.noConfusion h
      · intro h
        exfalso
        simp only [identKey, huf, he, if_true, Bool.false_eq_true,
          if_false] at h
        exact Sum.inr_ne_inl h
    · have hef : truthyOpt (dget e "url") = false := by simpa using he
      simp only [matchesEntry, identKey, huf, hef, Bool.false_and,
        Bool.not_false, Bool.true_and, Bool.false_or, Bool.false_eq_true,
        if_false]
      constructor
      · intro h
        have hn : dget e "name" = dget r "name" := by
          have := (Bool.and_eq_true ..).mp h
          simpa using this.1
        have hs : dget e "source" = dget r "source" := by
          have := (Bool.and_eq_true ..).mp h
          simpa using this.2
        rw [hn, hs]
      · intro h
        have h' := Prod.mk.inj (Sum.inr.inj h)
        simp [h'.1, h'.2]

/-! ## `findExisting` and the two branches of Add -/

theorem findExisting_none_iff (r : Dict) (s : List Dict) :
    findExisting r s = none ↔ ∀ e ∈ s, matchesEntry r e = false := by
  induction s with
  | nil => simp [findExisting]
  | cons e rest ih =>
    by_cases h : matchesEntry r e = true
    · simp [findExisting, h]
    · have hf : matchesEntry r e = false := by simpa using h
      simp only [findExisting, hf, Bool.false_eq_true, if_false,
        Option.map_eq_none', List.mem_cons]
      rw [ih]
      constructor
      · intro hall e' he'
        rcases he' with he' | he'
        · rw [he']; exact hf
        · exact hall e' he'
      · intro hall e' he'
        exact hall e' (Or.inr he')

theorem findExisting_some (r : Dict) (s : List Dict) (i : Nat) (e : Dict)
    (h : findExisting r s = some (i, e)) :
    s.get? i = some e ∧ matchesEntry r e = true := by
  induction s generalizing i with
  | nil => simp [findExisting] at h
  | cons e0 rest ih =>
    by_cases hm : matchesEntry r e0 = true
    · simp only [findExisting, hm, if_true] at h
      have h1 : i = 0 ∧ e0 = e := by
        have := Option.some.inj h
        exact ⟨(Prod.mk.inj this).1.symm, (Prod.mk.inj this).2⟩
      rcases h1 with ⟨hi, he⟩
      subst hi; subst he
      exact ⟨rfl, hm⟩
    · have hf : matchesEntry r e0 = false := by simpa using hm
      simp only [findExisting, hf, Bool.false_eq_true, if_false] at h
      rcases Option.map_eq_some'.mp h with ⟨⟨j, e'⟩, hj, hje⟩
      have hi : j + 1 = i := (Prod.mk.inj hje).1
      have he : e' = e := (Prod.mk.inj hje).2
      subst he
      rcases ih j hj with ⟨hget, hmt⟩
      rw [← hi]
      exact ⟨by simpa using hget, hmt⟩

/-- When no stored entry matches, Add takes the insert branch: the
prepared entry goes to the front and the sequence is truncated to 50. -/
theorem add_to_history_fresh (s : List Dict) (r : Dict) (t : Int)
    (h : ∀ e ∈ s, matchesEntry r e = false) :
    add_to_history s r t =
      some ((prepareNew r t :: s).take 50, prepareNew r t) := by
  unfold add_to_history
  rw [(findExisting_none_iff r s).mpr h]

/-! ## Merge-branch lemmas -/

theorem matchesEntry_url (r e : Dict)
    (hu : truthyOpt (dget r "url") = true)
    (h : matchesEntry r e = true) : dget e "url" = dget r "url" := by
  simp only [matchesEntry, hu, Bool.true_and, Bool.not_true,
    Bool.false_and, Bool.or_false] at h
  simpa using h

theorem matchesEntry_nameSource (r e : Dict)
    (hu : truthyOpt (dget r "url") = false)
    (h : matchesEntry r e = true) :
    truthyOpt (dget e "url") = false ∧ dget e "name" = dget r "name" ∧
      dget e "source" = dget r "source" := by
  simp only [matchesEntry, hu, Bool.false_and, Bool.not_false,
    Bool.true_and, Bool.false_or] at h
  rcases Bool.and_eq_true .. |>.mp h with ⟨h1, hs⟩
  rcases Bool.and_eq_true .. |>.mp h1 with ⟨hurl, hn⟩
  refine ⟨by simpa using hurl, by simpa using hn, by simpa using hs⟩

theorem mergeEntry_eq (e r : Dict) (t n : Int)
    (hn : incCookCount e = some n) :
    mergeEntry e r t =
      some (overlay (dset (dset e "lastCooked" (.num t)) "cookCount"
        (.num n)) r) := by
  simp [mergeEntry, hn]

/-- The merged entry's `cookCount` is the incremented one. -/
theorem mergeEntry_cookCount (e r : Dict) (t n : Int) (m : Dict)
    (hn : incCookCount e = some n) (hm : mergeEntry e r t = some m) :
    dget m "cookCount" = some (.num n) := by
  rw [mergeEntry_eq e r t n hn] at hm
  have h := Option.some.inj hm
  rw [← h, overlay_dget_excluded _ _ _ (by decide), dget_dset_self]

/-- The merged entry's `lastCooked` is the supplied wall-clock time. -/
theorem mergeEntry_lastCooked (e r : Dict) (t n : Int) (m : Dict)
    (hn : incCookCount e = some n) (hm : mergeEntry e r t = some m) :
    dget m "lastCooked" = some (.num t) := by
  rw [mergeEntry_eq e r t n hn] at hm
  have h := Option.some.inj hm
  rw [← h, overlay_dget_excluded _ _ _ (by decide),
    dget_dset_ne _ _ _ _ (by decide), dget_dset_self]

/-- The frame condition of the merged entry on every non-excluded key. -/
theorem mergeEntry_frame (e r : Dict) (t : Int) (m : Dict) (k : String)
    (hr : dkeysNodup r) (hm : mergeEntry e r t = some m)
    (hk : k ∉ excludedKeys) :
    dget m k = if (dget r k).isSome then dget r k else dget e k := by
  unfold mergeEntry at hm
  rcases Option.map_eq_some'.mp hm with ⟨n, hn, hmn⟩
  have hk1 : k ≠ "lastCooked" := by
    intro h; exact hk (by rw [h]; decide)
  have hk2 : k ≠ "cookCount" := by
    intro h; exact hk (by rw [h]; decide)
  rw [← hmn, overlay_dget _ _ _ hr hk]
  by_cases hs : (dget r k).isSome
  · simp [hs]
  · simp only [hs, Bool.false_eq_true, if_false]
    rw [dget_dset_ne _ _ _ _ hk2, dget_dset_ne _ _ _ _ hk1]

/-- Merging preserves the identity key of the incoming recipe. -/
theorem identKey_mergeEntry (e r : Dict) (t : Int) (m : Dict)
    (hr : dkeysNodup r) (hmatch : matchesEntry r e = true)
    (hm : mergeEntry e r t = some m) :
    identKey m = identKey r := by
  have hurl := mergeEntry_frame e r t m "url" hr hm (by decide)
  have hname := mergeEntry_frame e r t m "name" hr hm (by decide)
  have hsource := mergeEntry_frame e r t m "source" hr hm (by decide)
  by_cases hu : truthyOpt (dget r "url") = true
  · have heq : dget e "url" = dget r "url" := matchesEntry_url r e hu hmatch
    have hsome : (dget r "url").isSome := by
      cases h : dget r "url" with
      | none => rw [h] at hu; simp [truthyOpt] at hu
      | some v => simp
    have hmurl : dget m "url" = dget r "url" := by
      rw [hurl]; simp [hsome]
    unfold identKey
    rw [hmurl, hu]
    simp
  · have huf : truthyOpt (dget r "url") = false := by simpa using hu
    rcases matchesEntry_nameSource r e huf hmatch with ⟨hef, hen, hes⟩
    have hmurl : truthyOpt (dget m "url") = false := by
      rw [hurl]
      by_cases hs : (dget r "url").isSome
      · simp only [hs, if_true]; exact huf
      · simp only [hs, Bool.false_eq_true, if_false]; exact hef
    have hmname : dget m "name" = dget r "name" := by
      rw [hname]
      by_cases hs : (dget r "name").isSome
      · simp [hs]
      · simp only [hs, Bool.false_eq_true, if_false]; exact hen
    have hmsource : dget m "source" = dget r "source" := by
      rw [hsource]
      by_cases hs : (dget r "source").isSome
      · simp [hs]
      · simp only [hs, Bool.false_eq_true, if_false]; exact hes
    unfold identKey
    rw [hmurl, huf, hmname, hmsource]
    simp

/-- The merge branch of `add_to_history`: the merged entry moves to the
front, the matched slot disappears, the sequence is truncated to 50, and
the returned value is the incoming recipe itself. -/
theorem add_to_history_merge (s : List Dict) (r : Dict) (t : Int)
    (i : Nat) (e m : Dict)
    (hf : findExisting r s = some (i, e)) (hm : mergeEntry e r t = some m) :
    add_to_history s r t = some ((m :: s.eraseIdx i).take 50, r) := by
  unfold add_to_history
  rw [hf]
  simp [hm]

theorem matchesEntry_eq_false_of_ne (r e : Dict)
    (h : identKey r ≠ identKey e) : matchesEntry r e = false := by
  cases hm : matchesEntry r e
  · rfl
  · exact absurd ((matchesEntry_iff r e).mp hm) h

theorem matchesEntry_eq_true_of_eq (r e : Dict)
    (h : identKey r = identKey e) : matchesEntry r e = true :=
  (matchesEntry_iff r e).mpr h

theorem incCookCount_prepareNew (r : Dict) (t : Int) :
    incCookCount (prepareNew r t) = some 2 := by
  unfold incCookCount prepareNew
  rw [dget_dset_ne _ _ _ _ (by decide), dget_dset_self]
  rfl

theorem matches_false_of_truthy_falsy (r e : Dict)
    (hu : truthyOpt (dget r "url") = true)
    (hef : truthyOpt (dget e "url") = false) : matchesEntry r e = false := by
  have hne : ¬ (dget e "url" == dget r "url") = true := by
    intro h
    have h' : dget e "url" = dget r "url" := by simpa using h
    rw [h', hu] at hef
    exact Bool.noConfusion hef
  simp only [matchesEntry, hu, Bool.true_and, Bool.not_true,
    Bool.false_and, Bool.and_false, Bool.or_false]
  simpa using hne

theorem matches_false_of_falsy_truthy (r e : Dict)
    (hu : truthyOpt (dget r "url") = false)
    (he : truthyOpt (dget e "url") = true) : matchesEntry r e = false := by
  simp [matchesEntry, hu, he]

/-! ## Claim theorems for the History Store -/

/-- Claim C9: merging by `(name, source)` requires both sides to lack a
(truthy) url.  An incoming entry with a url never matches a stored
URL-less entry (whatever their names and sources), and vice versa; when
every stored entry is in the other camp, Add inserts a new entry at the
front instead of merging. -/
theorem add_never_merges_across_url_presence :
    (∀ r e : Dict, truthyOpt (dget r "url") = true →
      truthyOpt (dget e "url") = false → matchesEntry r e = false) ∧
    (∀ r e : Dict, truthyOpt (dget r "url") = false →
      truthyOpt (dget e "url") = true → matchesEntry r e = false) ∧
    (∀ (s : List Dict) (r : Dict) (t : Int),
      (∀ e ∈ s, truthyOpt (dget r "url") ≠ truthyOpt (dget e "url")) →
      add_to_history s r t =
        some ((prepareNew r t :: s).take 50, prepareNew r t)) := by
  refine ⟨matches_false_of_truthy_falsy, matches_false_of_falsy_truthy, ?_⟩
  intro s r t h
  apply add_to_history_fresh
  intro e he
  cases hu : truthyOpt (dget r "url")
  · cases hev : truthyOpt (dget e "url")
    · exact absurd (hev ▸ hu) (h e he)
    · exact matches_false_of_falsy_truthy r e hu hev
  · cases hev : truthyOpt (dget e "url")
    · exact matches_false_of_truthy_falsy r e hu hev
    · exact absurd (hev ▸ hu) (h e he)

/-- Witness for C9 at concrete entries: an incoming recipe with url `"u"`
and a stored URL-less entry of identical name and source never match, and
Add on such a store inserts. -/
theorem add_never_merges_across_url_presence_witness :
    matchesEntry [("url", JVal.str "u"), ("name", JVal.str "Soup"),
        ("source", JVal.str "Manual")]
      [("name", JVal.str "Soup"), ("source", JVal.str "Manual")] = false ∧
    matchesEntry [("name", JVal.str "Soup"), ("source", JVal.str "Manual")]
      [("url", JVal.str "u"), ("name", JVal.str "Soup"),
        ("source", JVal.str "Manual")] = false ∧
    add_to_history [[("name", JVal.str "Soup"), ("source", JVal.str "Manual")]]
        [("url", JVal.str "u"), ("name", JVal.str "Soup"),
          ("source", JVal.str "Manual")] 3 =
      some ([prepareNew [("url", JVal.str "u"), ("name", JVal.str "Soup"),
          ("source", JVal.str "Manual")] 3,
        [("name", JVal.str "Soup"), ("source", JVal.str "Manual")]],
        prepareNew [("url", JVal.str "u"), ("name", JVal.str "Soup"),
          ("source", JVal.str "Manual")] 3) := by
  refine ⟨?_, ?_, ?_⟩
  · exact add_never_merges_across_url_presence.1 _ _ (by decide) (by decide)
  · exact add_never_merges_across_url_presence.2.1 _ _ (by decide) (by decide)
  · exact add_never_merges_across_url_presence.2.2 _ _ 3 (by decide)

/-- Claim C10: in the merge branch of Add, every incoming key outside
`lastCooked`/`cookCount`/`isHistory` overwrites the stored entry's value,
null values included, while `cookCount` is incremented and `lastCooked`
updated; the merged entry sits at the front of the persisted sequence and
the incoming keys absent from the recipe keep their stored values. -/
theorem merge_overlays_incoming_fields (s : List Dict) (r : Dict) (t : Int)
    (i : Nat) (e : Dict) (n : Int)
    (hr : dkeysNodup r)
    (hf : findExisting r s = some (i, e))
    (hn : incCookCount e = some n) :
    ∃ s' m, add_to_history s r t = some (s', r) ∧ s'.head? = some m ∧
      (∀ k, k ∉ excludedKeys →
        dget m k = if (dget r k).isSome then dget r k else dget e k) ∧
      dget m "cookCount" = some (.num n) ∧
      dget m "lastCooked" = some (.num t) := by
  have hm := mergeEntry_eq e r t n hn
  set m := overlay (dset (dset e "lastCooked" (.num t)) "cookCount"
    (.num n)) r with hmdef
  refine ⟨(m :: s.eraseIdx i).take 50, m,
    add_to_history_merge s r t i e m hf hm, ?_, ?_, ?_, ?_⟩
  · rw [show (50 : Nat) = 49 + 1 from rfl, List.take_succ_cons]
    rfl
  · intro k hk
    exact mergeEntry_frame e r t m k hr hm hk
  · exact mergeEntry_cookCount e r t n m hn hm
  · exact mergeEntry_lastCooked e r t n m hn hm

/-- Witness for C10: re-adding the url-`"u"` recipe with `time` set to
null resets the stored field to null, increments `cookCount` to 2 and
stamps the new time. -/
theorem merge_overlays_incoming_fields_witness :
    ∃ s' m, add_to_history [cexEntry]
        [("url", JVal.str "u"), ("time", JVal.null)] 7 =
        some (s', [("url", JVal.str "u"), ("time", JVal.null)]) ∧
      s'.head? = some m ∧
      (∀ k, k ∉ excludedKeys →
        dget m k = if (dget [("url", JVal.str "u"), ("time", JVal.null)]
            k).isSome then
          dget [("url", JVal.str "u"), ("time", JVal.null)] k
        else dget cexEntry k) ∧
      dget m "cookCount" = some (.num 2) ∧
      dget m "lastCooked" = some (.num 7) :=
  merge_overlays_incoming_fields [cexEntry]
    [("url", JVal.str "u"), ("time", JVal.null)] 7 0 cexEntry 2
    (by decide) (by decide) (by decide)

/-- Claim C4 counterexample: merging the url-`"u"` recipe into a store
already holding it, the merge branch returns the incoming dict unchanged —
it has no `cookCount` at all — while the entry at the front of the
persisted sequence holds the incremented `cookCount` 2, so the returned
value is not the merged entry. -/
theorem add_returns_unmerged_cex :
    (add_to_history [cexEntry] cexRecipe 5).map (fun p => p.2) =
      some cexRecipe ∧
    dget cexRecipe "cookCount" = none ∧
    (add_to_history [cexEntry] cexRecipe 5).map
        (fun p => p.1.head?.bind (fun m => dget m "cookCount")) =
      some (some (JVal.num 2)) ∧
    (add_to_history [cexEntry] cexRecipe 5).map
        (fun p => p.1.head? == some p.2) = some false := by decide

/-- Claim C4 amended: Add returns the incoming recipe object.  In the
insert branch this object was mutated in place (`lastCooked`,
`cookCount` = 1, `isHistory` = true) and equals the new front entry; in
the merge branch the incoming entry is returned as given and need not
carry the merged statistics. -/
theorem add_returns_incoming (s : List Dict) (r : Dict) (t : Int)
    (s' : List Dict) (ret : Dict)
    (h : add_to_history s r t = some (s', ret)) :
    (findExisting r s = none →
      ret = prepareNew r t ∧ s'.head? = some ret) ∧
    (∀ ie, findExisting r s = some ie → ret = r) := by
  cases hf : findExisting r s with
  | none =>
    have h2 : add_to_history s r t =
        some ((prepareNew r t :: s).take 50, prepareNew r t) := by
      unfold add_to_history
      rw [hf]
    rw [h2] at h
    obtain ⟨hs', hret⟩ := Prod.mk.inj (Option.some.inj h)
    constructor
    · intro _
      refine ⟨hret.symm, ?_⟩
      rw [← hs', ← hret, show (50 : Nat) = 49 + 1 from rfl,
        List.take_succ_cons]
      rfl
    · intro ie hie
      exact Option.noConfusion hie
  | some ie =>
    have h2 : add_to_history s r t =
        (mergeEntry ie.2 r t).map
          (fun m => ((m :: s.eraseIdx ie.1).take 50, r)) := by
      unfold add_to_history
      rw [hf]
    rw [h2] at h
    constructor
    · intro hnone
      exact Option.noConfusion hnone
    · intro ie' _
      rcases Option.map_eq_some'.mp h with ⟨m, _, hmn⟩
      exact ((Prod.mk.inj hmn).2).symm

/-- Witness for C4 amended, at the insert branch on an empty store. -/
theorem add_returns_incoming_witness :
    (findExisting cexRecipe [] = none →
      prepareNew cexRecipe 1 = prepareNew cexRecipe 1 ∧
      [prepareNew cexRecipe 1].head? = some (prepareNew cexRecipe 1)) ∧
    (∀ ie, findExisting cexRecipe [] = some ie →
      prepareNew cexRecipe 1 = cexRecipe) :=
  add_returns_incoming [] cexRecipe 1 [prepareNew cexRecipe 1]
    (prepareNew cexRecipe 1) (by decide)

/-- Claim C2: starting from an empty store, Add(A), Add(B), Add(A) with
distinct identity keys leaves the sequence [A, B] — A merged back to the
front with `cookCount` 2, B behind it. -/
theorem add_moves_readd_to_front (A B : Dict) (t1 t2 t3 : Int)
    (hA : dkeysNodup A) (hAB : identKey A ≠ identKey B) :
    ∃ s1 r1 s2 r2 s3 r3,
      add_to_history [] A t1 = some (s1, r1) ∧
      add_to_history s1 B t2 = some (s2, r2) ∧
      add_to_history s2 A t3 = some (s3, r3) ∧
      s3.map identKey = [identKey A, identKey B] ∧
      s3.head?.bind (fun m => dget m "cookCount") = some (JVal.num 2) := by
  have h1 : add_to_history [] A t1 =
      some ([prepareNew A t1], prepareNew A t1) := by
    have := add_to_history_fresh [] A t1 (by intro e he; cases he)
    simpa using this
  set pA := prepareNew A t1 with hpA
  have hmBpA : matchesEntry B pA = false := by
    apply matchesEntry_eq_false_of_ne
    rw [identKey_prepareNew]
    exact fun h => hAB h.symm
  have h2 : add_to_history [pA] B t2 =
      some ([prepareNew B t2, pA], prepareNew B t2) := by
    have := add_to_history_fresh [pA] B t2 (by
      intro e he
      rcases List.mem_singleton.mp he with rfl
      exact hmBpA)
    simpa using this
  set pB := prepareNew B t2 with hpB
  have hmApB : matchesEntry A pB = false := by
    apply matchesEntry_eq_false_of_ne
    rw [identKey_prepareNew]
    exact hAB
  have hmApA : matchesEntry A pA = true := by
    apply matchesEntry_eq_true_of_eq
    rw [identKey_prepareNew]
  have hfind : findExisting A [pB, pA] = some (1, pA) := by
    simp [findExisting, hmApB, hmApA]
  have hn : incCookCount pA = some 2 := incCookCount_prepareNew A t1
  have hm := mergeEntry_eq pA A t3 2 hn
  set m := overlay (dset (dset pA "lastCooked" (.num t3)) "cookCount"
    (.num 2)) A with hmdef
  have h3 : add_to_history [pB, pA] A t3 = some ([m, pB], A) := by
    have := add_to_history_merge [pB, pA] A t3 1 pA m hfind hm
    simpa using this
  refine ⟨[pA], pA, [pB, pA], pB, [m, pB], A, h1, h2, h3, ?_, ?_⟩
  · have hkm : identKey m = identKey A :=
      identKey_mergeEntry pA A t3 m hA hmApA hm
    have hkB : identKey pB = identKey B := identKey_prepareNew B t2
    simp [hkm, hkB]
  · have := mergeEntry_cookCount pA A t3 2 m hn hm
    simpa using this

/-- Witness for C2 at two concrete url-keyed recipes. -/
theorem add_moves_readd_to_front_witness :
    ∃ s1 r1 s2 r2 s3 r3,
      add_to_history [] [("url", JVal.str "a")] 1 = some (s1, r1) ∧
      add_to_history s1 [("url", JVal.str "b")] 2 = some (s2, r2) ∧
      add_to_history s2 [("url", JVal.str "a")] 3 = some (s3, r3) ∧
      s3.map identKey = [identKey [("url", JVal.str "a")],
        identKey [("url", JVal.str "b")]] ∧
      s3.head?.bind (fun m => dget m "cookCount") = some (JVal.num 2) :=
  add_moves_readd_to_front [("url", JVal.str "a")] [("url", JVal.str "b")]
    1 2 3 (by decide) (by decide)

/-- Claim C1 counterexample: on a store already holding the url-`"u"`
entry (cooked once), adding an entry with that url twice leaves a single
entry for the url whose `cookCount` is 3, not 2 — the claim's "for every
store" fails on stores that already contain the identity key. -/
theorem add_idempotent_cex :
    ((add_to_history [cexEntry] cexRecipe 1).bind
        (fun p => add_to_history p.1 cexRecipe 2)).map
        (fun p => p.1.map (fun e => dget e "cookCount")) =
      some [some (JVal.num 3)] ∧
    JVal.num 3 ≠ JVal.num 2 := by decide

/-- Claim C1 amended: for every store holding no entry that matches the
incoming entry's identity key, adding the entry twice yields a store with
exactly one entry for that key, at the front, with `cookCount` 2 — for
url-keyed and URL-less `(name, source)`-keyed entries alike. -/
theorem add_idempotent_on_identity (s : List Dict) (r : Dict) (t1 t2 : Int)
    (hr : dkeysNodup r) (hfresh : ∀ e ∈ s, matchesEntry r e = false) :
    ∃ s1 ret1 s2 ret2 m,
      add_to_history s r t1 = some (s1, ret1) ∧
      add_to_history s1 r t2 = some (s2, ret2) ∧
      s2.head? = some m ∧ identKey m = identKey r ∧
      dget m "cookCount" = some (JVal.num 2) ∧
      (s2.filter (fun e => decide (identKey e = identKey r))).length = 1
    := by
  have h1 := add_to_history_fresh s r t1 hfresh
  set pr := prepareNew r t1 with hpr
  have hs1 : (pr :: s).take 50 = pr :: s.take 49 := by
    rw [show (50 : Nat) = 49 + 1 from rfl, List.take_succ_cons]
  have hmrp : matchesEntry r pr = true := by
    apply matchesEntry_eq_true_of_eq
    rw [hpr, identKey_prepareNew]
  have hfind : findExisting r (pr :: s.take 49) = some (0, pr) := by
    simp [findExisting, hmrp]
  have hn : incCookCount pr = some 2 := incCookCount_prepareNew r t1
  have hme := mergeEntry_eq pr r t2 2 hn
  set m := overlay (dset (dset pr "lastCooked" (.num t2)) "cookCount"
    (.num 2)) r with hmdef
  have h2 := add_to_history_merge (pr :: s.take 49) r t2 0 pr m hfind hme
  have hs2 : (m :: (pr :: s.take 49).eraseIdx 0).take 50 =
      m :: s.take 49 := by
    show (m :: s.take 49).take 50 = m :: s.take 49
    rw [show (50 : Nat) = 49 + 1 from rfl, List.take_succ_cons,
      List.take_take]
    norm_num
  have hkm : identKey m = identKey r :=
    identKey_mergeEntry pr r t2 m hr hmrp hme
  refine ⟨pr :: s.take 49, pr, m :: s.take 49, r, m,
    by rw [h1, hs1], by rw [h2, hs2], rfl, hkm,
    mergeEntry_cookCount pr r t2 2 m hn hme, ?_⟩
  have htail : (s.take 49).filter
      (fun e => decide (identKey e = identKey r)) = [] := by
    rw [List.filter_eq_nil_iff]
    intro e he hb
    have hes : e ∈ s := List.take_subset _ _ he
    have hke : identKey e = identKey r := of_decide_eq_true hb
    have : matchesEntry r e = true := matchesEntry_eq_true_of_eq r e hke.symm
    rw [hfresh e hes] at this
    exact Bool.noConfusion this
  have hfc : List.filter (fun e => decide (identKey e = identKey r))
        (m :: s.take 49) =
      m :: List.filter (fun e => decide (identKey e = identKey r))
        (s.take 49) := by
    apply List.filter_cons_of_pos
    exact decide_eq_true hkm
  rw [hfc, htail]
  rfl

/-- Witness for C1 amended at a fresh url-keyed recipe on the empty
store. -/
theorem add_idempotent_on_identity_witness :
    ∃ s1 ret1 s2 ret2 m,
      add_to_history [] [("url", JVal.str "w")] 1 = some (s1, ret1) ∧
      add_to_history s1 [("url", JVal.str "w")] 2 = some (s2, ret2) ∧
      s2.head? = some m ∧
      identKey m = identKey [("url", JVal.str "w")] ∧
      dget m "cookCount" = some (JVal.num 2) ∧
      (s2.filter (fun e =>
        decide (identKey e = identKey [("url", JVal.str "w")]))).length = 1 :=
  add_idempotent_on_identity [] [("url", JVal.str "w")] 1 2 (by decide)
    (by intro e he; exact absurd he (List.not_mem_nil e))

/-! ## The 50-entry cap (claim C6) -/

theorem take_append_take (a l : List Dict) (n : Nat) :
    (a ++ l.take n).take n = (a ++ l).take n := by
  rw [List.take_append_eq_append_take, List.take_append_eq_append_take,
    List.take_take]
  have : min (n - a.length) n = n - a.length :=
    min_eq_left (Nat.sub_le n a.length)
  rw [this]

/-- Adding a sequence of recipes whose identity keys are pairwise
distinct and absent from the (already truncated) store prepares each one
in turn, stacks them at the front, and keeps the first 50. -/
theorem addAll_fresh (rs : List (Dict × Int)) (s : List Dict)
    (hdisj : ∀ p ∈ rs, ∀ e ∈ s, identKey p.1 ≠ identKey e)
    (hnodup : (rs.map (fun p => identKey p.1)).Nodup)
    (hlen : s.length ≤ 50) :
    addAll rs s =
      some (((rs.map (fun p => prepareNew p.1 p.2)).reverse ++ s).take 50)
    := by
  induction rs generalizing s with
  | nil =>
    simp only [addAll, List.map_nil, List.reverse_nil, List.nil_append]
    rw [List.take_of_length_le hlen]
  | cons p rest ih =>
    have hfresh : ∀ e ∈ s, matchesEntry p.1 e = false := by
      intro e he
      exact matchesEntry_eq_false_of_ne _ _
        (hdisj p (List.mem_cons_self p rest) e he)
    have hadd := add_to_history_fresh s p.1 p.2 hfresh
    have hstep : addAll (p :: rest) s =
        addAll rest ((prepareNew p.1 p.2 :: s).take 50) := by
      simp only [addAll, hadd]
    rw [hstep]
    have hnc : (identKey p.1 :: rest.map (fun q => identKey q.1)).Nodup :=
      hnodup
    have hkey : identKey p.1 ∉ rest.map (fun q => identKey q.1) :=
      (List.nodup_cons.mp hnc).1
    have hdisj' : ∀ q ∈ rest, ∀ e ∈ (prepareNew p.1 p.2 :: s).take 50,
        identKey q.1 ≠ identKey e := by
      intro q hq e he
      have he' : e ∈ prepareNew p.1 p.2 :: s := List.take_subset _ _ he
      rcases List.mem_cons.mp he' with rfl | hes
      · rw [identKey_prepareNew]
        intro hk
        exact hkey (hk ▸ List.mem_map_of_mem (fun q => identKey q.1) hq)
      · exact hdisj q (List.mem_cons_of_mem p hq) e hes
    have hnodup' : (rest.map (fun q => identKey q.1)).Nodup :=
      (List.nodup_cons.mp hnc).2
    have hlen' : ((prepareNew p.1 p.2 :: s).take 50).length ≤ 50 := by
      rw [List.length_take]
      exact min_le_left _ _
    rw [ih ((prepareNew p.1 p.2 :: s).take 50) hdisj' hnodup' hlen']
    rw [take_append_take, List.map_cons, List.reverse_cons,
      List.append_assoc]
    rfl

/-- Claim C6: adding 51 recipes with pairwise distinct identity keys to
an empty store leaves exactly 50 entries — the keys of the retained
entries are the 50 most recently added ones in recency order, and the
first-added recipe's key is gone. -/
theorem history_cap_evicts_oldest (rs : List (Dict × Int))
    (hlen : rs.length = 51)
    (hnodup : (rs.map (fun p => identKey p.1)).Nodup) :
    ∃ s', addAll rs [] = some s' ∧ s'.length = 50 ∧
      s'.map identKey =
        ((rs.map (fun p => identKey p.1)).reverse).take 50 ∧
      ∀ p, rs.head? = some p → identKey p.1 ∉ s'.map identKey := by
  have h := addAll_fresh rs []
    (by intro p hp e he; exact absurd he (List.not_mem_nil e)) hnodup
    (by simp)
  rw [List.append_nil] at h
  have hmaplen : (rs.map (fun p => prepareNew p.1 p.2)).length = 51 := by
    rw [List.length_map, hlen]
  have hkeys : ((rs.map (fun p => prepareNew p.1 p.2)).reverse.take
      50).map identKey =
      ((rs.map (fun p => identKey p.1)).reverse).take 50 := by
    rw [List.map_take, List.map_reverse, List.map_map]
    have : (identKey ∘ fun p => prepareNew p.1 p.2) =
        fun p : Dict × Int => identKey p.1 := by
      funext q
      exact identKey_prepareNew q.1 q.2
    rw [this]
  refine ⟨_, h, ?_, hkeys, ?_⟩
  · rw [List.length_take, List.length_reverse, hmaplen]
    exact min_eq_left (by norm_num)
  · intro p hp hmem
    rw [hkeys] at hmem
    set K := rs.map (fun q => identKey q.1) with hK
    have hKlen : K.length = 51 := by
      rw [hK, List.length_map, hlen]
    have hKrev : K.reverse.take 50 = (K.drop (K.length - 50)).reverse :=
      List.take_reverse
    rw [hKrev, hKlen] at hmem
    have hmem' : identKey p.1 ∈ K.drop (51 - 50) := List.mem_reverse.mp hmem
    have hhead : K.head? = some (identKey p.1) := by
      rw [hK, List.head?_map, hp]
      rfl
    obtain ⟨k0, K', hKc⟩ : ∃ k0 K', K = k0 :: K' := by
      cases hc : K with
      | nil => rw [hc] at hKlen; exact absurd hKlen (by norm_num)
      | cons a b => exact ⟨a, b, rfl⟩
    have hnodupK : K.Nodup := hnodup
    rw [hKc] at hhead hmem' hnodupK
    have hk0 : k0 = identKey p.1 := Option.some.inj hhead
    simp only [show (51 : Nat) - 50 = 1 from rfl, List.drop_succ_cons,
      List.drop_zero] at hmem'
    exact (List.nodup_cons.mp hnodupK).1 (hk0 ▸ hmem')

/-- Witness for C6: 51 concrete recipes with urls `u0`, …, `u50`. -/
theorem history_cap_evicts_oldest_witness :
    ∃ s',
      addAll ((List.range 51).map (fun i =>
        (([("url", JVal.str ("u" ++ toString i))] : Dict), (i : Int)))) [] =
        some s' ∧
      s'.length = 50 ∧
      s'.map identKey =
        ((((List.range 51).map (fun i =>
          (([("url", JVal.str ("u" ++ toString i))] : Dict),
            (i : Int)))).map (fun p => identKey p.1)).reverse).take 50 ∧
      ∀ p, ((List.range 51).map (fun i =>
          (([("url", JVal.str ("u" ++ toString i))] : Dict),
            (i : Int)))).head? = some p →
        identKey p.1 ∉ s'.map identKey :=
  history_cap_evicts_oldest _ (by decide) (by decide)

/-! ## The store invariant (claim C3) -/

theorem lcNum_prepareNew (r : Dict) (t : Int) :
    lcNum (prepareNew r t) = some t := by
  unfold lcNum prepareNew
  rw [dget_dset_ne _ _ _ _ (by decide), dget_dset_ne _ _ _ _ (by decide),
    dget_dset_self]

theorem map_eraseIdx {α : Type} (f : Dict → α) (l : List Dict) (i : Nat) :
    (l.eraseIdx i).map f = (l.map f).eraseIdx i := by
  induction l generalizing i with
  | nil => simp [List.eraseIdx]
  | cons a l ih =>
    cases i with
    | zero => simp [List.eraseIdx]
    | succ j => simp [List.eraseIdx, ih]

theorem not_mem_eraseIdx_of_nodup {α : Type} (L : List α) (i : Nat) (a : α)
    (hL : L.Nodup) (ha : L.get? i = some a) : a ∉ L.eraseIdx i := by
  induction L generalizing i with
  | nil => exact absurd ha (by simp)
  | cons b L ih =>
    cases i with
    | zero =>
      have hab : b = a := Option.some.inj ha
      subst hab
      simpa [List.eraseIdx] using (List.nodup_cons.mp hL).1
    | succ j =>
      have ha' : L.get? j = some a := ha
      have hmem : a ∈ L := List.get?_mem ha'
      have hne : a ≠ b := fun h =>
        (List.nodup_cons.mp hL).1 (h ▸ hmem)
      simp only [List.eraseIdx]
      intro hmem'
      rcases List.mem_cons.mp hmem' with h | h
      · exact hne h
      · exact ih j (List.nodup_cons.mp hL).2 ha' h

/-- One Add preserves the store invariant, given a wall-clock timestamp
no earlier than every stored one. -/
theorem histInvariant_add (s : List Dict) (r : Dict) (t : Int)
    (s' : List Dict) (ret : Dict)
    (hinv : histInvariant s) (hr : dkeysNodup r)
    (hts : ∀ e ∈ s, ∀ x, lcNum e = some x → x ≤ t)
    (h : add_to_history s r t = some (s', ret)) : histInvariant s' := by
  obtain ⟨hnodup, hlen, hsome, hpair⟩ := hinv
  cases hf : findExisting r s with
  | none =>
    have h2 : add_to_history s r t =
        some ((prepareNew r t :: s).take 50, prepareNew r t) :=
      add_to_history_fresh s r t ((findExisting_none_iff r s).mp hf)
    rw [h2] at h
    obtain ⟨hs', _⟩ := Prod.mk.inj (Option.some.inj h)
    rw [← hs']
    have hkey : identKey r ∉ s.map identKey := by
      intro hmem
      rcases List.mem_map.mp hmem with ⟨e, he, hke⟩
      have := matchesEntry_eq_true_of_eq r e hke.symm
      rw [(findExisting_none_iff r s).mp hf e he] at this
      exact Bool.noConfusion this
    have hcons : (prepareNew r t :: s).map identKey =
        identKey r :: s.map identKey := by
      rw [List.map_cons, identKey_prepareNew]
    refine ⟨?_, ?_, ?_, ?_⟩
    · rw [List.map_take]
      exact List.Nodup.sublist (List.take_sublist _ _)
        (by rw [hcons]; exact List.nodup_cons.mpr ⟨hkey, hnodup⟩)
    · rw [List.length_take]
      exact min_le_left _ _
    · intro e he
      rcases List.mem_cons.mp (List.take_subset _ _ he) with rfl | hes
      · rw [lcNum_prepareNew]
        rfl
      · exact hsome e hes
    · apply List.Pairwise.sublist (List.take_sublist _ _)
      refine List.pairwise_cons.mpr ⟨?_, hpair⟩
      intro e he x y hx hy
      rw [lcNum_prepareNew] at hx
      have hx' : x = t := (Option.some.inj hx).symm
      subst hx'
      exact hts e he y hy
  | some ie =>
    rcases ie with ⟨i, e⟩
    have h2 : add_to_history s r t =
        (mergeEntry e r t).map
          (fun m => ((m :: s.eraseIdx i).take 50, r)) := by
      unfold add_to_history
      rw [hf]
    rw [h2] at h
    rcases Option.map_eq_some'.mp h with ⟨m, hm, hmn⟩
    obtain ⟨hs', _⟩ := Prod.mk.inj hmn
    rw [← hs']
    obtain ⟨hget, hmatch⟩ := findExisting_some r s i e hf
    have hkem : identKey m = identKey e := by
      rw [identKey_mergeEntry e r t m hr hmatch hm]
      exact (matchesEntry_iff r e).mp hmatch
    have hesub : s.eraseIdx i ⊆ s := (List.eraseIdx_sublist s i).subset
    have hn' : ∃ n, incCookCount e = some n := by
      unfold mergeEntry at hm
      rcases Option.map_eq_some'.mp hm with ⟨n, hn, _⟩
      exact ⟨n, hn⟩
    rcases hn' with ⟨n, hn⟩
    have hlc : lcNum m = some t := by
      unfold lcNum
      rw [mergeEntry_lastCooked e r t n m hn hm]
    refine ⟨?_, ?_, ?_, ?_⟩
    · rw [List.map_take]
      apply List.Nodup.sublist (List.take_sublist _ _)
      rw [List.map_cons, hkem, map_eraseIdx identKey s i]
      refine List.nodup_cons.mpr ⟨?_, ?_⟩
      · apply not_mem_eraseIdx_of_nodup (s.map identKey) i (identKey e)
          hnodup
        rw [List.get?_map, hget]
        rfl
      · exact List.Nodup.sublist (List.eraseIdx_sublist _ _) hnodup
    · rw [List.length_take]
      exact min_le_left _ _
    · intro x hx
      rcases List.mem_cons.mp (List.take_subset _ _ hx) with rfl | hxs
      · rw [hlc]
        rfl
      · exact hsome x (hesub hxs)
    · apply List.Pairwise.sublist (List.take_sublist _ _)
      refine List.pairwise_cons.mpr
        ⟨?_, List.Pairwise.sublist (List.eraseIdx_sublist _ _) hpair⟩
      intro x hx a b ha hb
      rw [hlc] at ha
      have ha' : a = t := (Option.some.inj ha).symm
      subst ha'
      exact hts x (hesub hx) b hb

/-- Claim C3: every store state reachable through Read, Add and Clear
satisfies the History Store invariants — pairwise distinct identity keys,
at most 50 entries, and entries ordered by recency of `lastCooked`
(most-recently-cooked first).  `Read` is `get_history`, whose value the
invariant constrains; `Clear` and `Add` appear as `Reachable` steps. -/
theorem reachable_store_invariant (st : StoreState) (h : Reachable st) :
    histInvariant (get_history st) := by
  induction h with
  | init =>
    refine ⟨List.nodup_nil, by simp [get_history], ?_, List.Pairwise.nil⟩
    intro e he
    exact absurd he (List.not_mem_nil e)
  | clear st hst ih =>
    refine ⟨List.nodup_nil, by simp [clear_history, get_history], ?_,
      List.Pairwise.nil⟩
    intro e he
    exact absurd he (List.not_mem_nil e)
  | add st r now s' ret hst hr hts hadd ih =>
    exact histInvariant_add (get_history st) r now s' ret ih hr hts hadd

/-- Witness for C3: the store reached by one Add on the absent store
satisfies the invariant. -/
theorem reachable_store_invariant_witness :
    histInvariant (get_history (some [prepareNew cexRecipe 1])) :=
  reachable_store_invariant (some [prepareNew cexRecipe 1])
    (Reachable.add none cexRecipe 1 [prepareNew cexRecipe 1]
      (prepareNew cexRecipe 1) Reachable.init (by decide)
      (by intro e he; exact absurd he (List.not_mem_nil e)) (by decide))

/-! ## Timing extraction (claim C5) -/

theorem orDefault_cons (x : String) (l : List String) (d : Option String) :
    orDefault (x :: l) d = orDefault l (some x) := by
  unfold orDefault
  cases l with
  | nil => rfl
  | cons y l' =>
    rw [List.getLast?_cons_cons]
    cases hg : (y :: l').getLast? with
    | none =>
      exfalso
      have hs : ((y :: l').getLast?).isSome := by
        rw [List.getLast?_isSome]
        simp
      rw [hg] at hs
      exact Bool.noConfusion hs
    | some z => rfl

theorem orDefault_none (l : List String) : orDefault l none = l.getLast? := by
  unfold orDefault
  cases hg : l.getLast? <;> rfl

theorem foldl_timesStep_prep (texts : List String) :
    ∀ acc, (texts.foldl timesStep acc).1 =
      orDefault ((texts.map pyLower).filter
        (fun t => strContains t "prep")) acc.1 := by
  induction texts with
  | nil =>
    intro acc
    rfl
  | cons x rest ih =>
    intro acc
    rw [List.foldl_cons, ih, List.map_cons, List.filter_cons]
    by_cases hp : strContains (pyLower x) "prep" = true
    · have hstep : (timesStep acc x).1 = some (pyLower x) := by
        simp [timesStep, hp]
      simp only [hp, if_true, eq_self_iff_true]
      rw [orDefault_cons, hstep]
    · have hpf : strContains (pyLower x) "prep" = false := by simpa using hp
      have hstep : (timesStep acc x).1 = acc.1 := by
        simp only [timesStep, hpf, Bool.false_eq_true, if_false]
        split
        · rfl
        · split <;> rfl
      simp only [hpf, Bool.false_eq_true, if_false]
      rw [hstep]

theorem foldl_timesStep_cook (texts : List String) :
    ∀ acc, (texts.foldl timesStep acc).2.1 =
      orDefault ((texts.map pyLower).filter
        (fun t => !strContains t "prep" && strContains t "cook")) acc.2.1
    := by
  induction texts with
  | nil =>
    intro acc
    rfl
  | cons x rest ih =>
    intro acc
    rw [List.foldl_cons, ih, List.map_cons, List.filter_cons]
    by_cases hp : strContains (pyLower x) "prep" = true
    · have hstep : (timesStep acc x).2.1 = acc.2.1 := by
        simp [timesStep, hp]
      simp only [hp, Bool.not_true, Bool.false_and, Bool.false_eq_true,
        if_false]
      rw [hstep]
    · have hpf : strContains (pyLower x) "prep" = false := by simpa using hp
      by_cases hc : strContains (pyLower x) "cook" = true
      · have hstep : (timesStep acc x).2.1 = some (pyLower x) := by
          simp [timesStep, hpf, hc]
        simp only [hpf, hc, Bool.not_false, Bool.true_and, if_true,
          eq_self_iff_true]
        rw [orDefault_cons, hstep]
      · have hcf : strContains (pyLower x) "cook" = false := by simpa using hc
        have hstep : (timesStep acc x).2.1 = acc.2.1 := by
          simp only [timesStep, hpf, hcf, Bool.false_eq_true, if_false]
          split <;> rfl
        simp only [hpf, hcf, Bool.not_false, Bool.true_and,
          Bool.false_eq_true, if_false]
        rw [hstep]

theorem foldl_timesStep_total (texts : List String) :
    ∀ acc, (texts.foldl timesStep acc).2.2 =
      orDefault ((texts.map pyLower).filter
        (fun t => !strContains t "prep" && (!strContains t "cook" &&
          strContains t "total"))) acc.2.2 := by
  induction texts with
  | nil =>
    intro acc
    rfl
  | cons x rest ih =>
    intro acc
    rw [List.foldl_cons, ih, List.map_cons, List.filter_cons]
    by_cases hp : strContains (pyLower x) "prep" = true
    · have hstep : (timesStep acc x).2.2 = acc.2.2 := by
        simp [timesStep, hp]
      simp only [hp, Bool.not_true, Bool.false_and, Bool.false_eq_true,
        if_false]
      rw [hstep]
    · have hpf : strContains (pyLower x) "prep" = false := by simpa using hp
      by_cases hc : strContains (pyLower x) "cook" = true
      · have hstep : (timesStep acc x).2.2 = acc.2.2 := by
          simp [timesStep, hpf, hc]
        simp only [hpf, hc, Bool.not_true, Bool.not_false, Bool.true_and,
          Bool.false_and, Bool.and_false, Bool.false_eq_true, if_false]
        rw [hstep]
      · have hcf : strContains (pyLower x) "cook" = false := by simpa using hc
        by_cases ht : strContains (pyLower x) "total" = true
        · have hstep : (timesStep acc x).2.2 = some (pyLower x) := by
            simp [timesStep, hpf, hcf, ht]
          simp only [hpf, hcf, ht, Bool.not_false, Bool.true_and, if_true,
            eq_self_iff_true]
          rw [orDefault_cons, hstep]
        · have htf : strContains (pyLower x) "total" = false := by
            simpa using ht
          have hstep : (timesStep acc x).2.2 = acc.2.2 := by
            simp [timesStep, hpf, hcf, htf]
          simp only [hpf, hcf, htf, Bool.not_false, Bool.true_and,
            Bool.and_false, Bool.false_eq_true, if_false]
          rw [hstep]

/-- Claim C5 counterexample: on a page whose time-classed elements are
`"prep a"` then `"prep b"`, the extracted `prepTime` is the text of the
second (last) matching element, not the first — an already-filled bucket
is overwritten, not kept. -/
theorem timing_first_match_cex :
    (scrape_recipe_details cexTimePage).prepTime = some "prep b" ∧
    "prep b" ≠ "prep a" := by decide

/-- Claim C5 amended: the last match per bucket wins.  For every page,
`prepTime` is the lowered text of the last time-classed element containing
"prep"; `cookTime` that of the last element containing "cook" but not
"prep"; `totalTime` that of the last element containing "total" but
neither "prep" nor "cook" (the `elif` chain gives "prep", then "cook",
priority within a single element). -/
theorem timing_last_match_wins (p : RecipePage) :
    (scrape_recipe_details p).prepTime =
      ((p.timeTexts.map pyLower).filter
        (fun t => strContains t "prep")).getLast? ∧
    (scrape_recipe_details p).cookTime =
      ((p.timeTexts.map pyLower).filter
        (fun t => !strContains t "prep" && strContains t "cook")).getLast? ∧
    (scrape_recipe_details p).totalTime =
      ((p.timeTexts.map pyLower).filter
        (fun t => !strContains t "prep" && (!strContains t "cook" &&
          strContains t "total"))).getLast? := by
  refine ⟨?_, ?_, ?_⟩
  · have h := foldl_timesStep_prep p.timeTexts (none, none, none)
    rw [← orDefault_none]
    exact h
  · have h := foldl_timesStep_cook p.timeTexts (none, none, none)
    rw [← orDefault_none]
    exact h
  · have h := foldl_timesStep_total p.timeTexts (none, none, none)
    rw [← orDefault_none]
    exact h

/-- Witness for C5 amended at the concrete two-element page. -/
theorem timing_last_match_wins_witness :
    (scrape_recipe_details cexTimePage).prepTime =
      ((cexTimePage.timeTexts.map pyLower).filter
        (fun t => strContains t "prep")).getLast? ∧
    (scrape_recipe_details cexTimePage).cookTime =
      ((cexTimePage.timeTexts.map pyLower).filter
        (fun t => !strContains t "prep" && strContains t "cook")).getLast?
    ∧
    (scrape_recipe_details cexTimePage).totalTime =
      ((cexTimePage.timeTexts.map pyLower).filter
        (fun t => !strContains t "prep" && (!strContains t "cook" &&
          strContains t "total"))).getLast? :=
  timing_last_match_wins cexTimePage

/-! ## Ingredient extraction (claim C7) -/

theorem length_pos_of_ne_empty (t : String) (hne : t ≠ "") :
    0 < t.length := by
  cases t with
  | mk d =>
    cases d with
    | nil => exact absurd rfl hne
    | cons a l => simp [String.length]

/-- Every extracted ingredient comes from one of the three strategies
with that strategy's own length threshold: > 1 for method 1, ≥ 1 (merely
non-empty) for method 2, > 2 for method 3. -/
theorem mem_extractIngredients (p : RecipePage) (t : String)
    (h : t ∈ extractIngredients p) :
    (t ∈ p.ingredientsM1 ∧ t.length > 1) ∨
    (t ∈ p.ingredientsM2 ∧ 1 ≤ t.length) ∨
    (t ∈ p.ingredientsM3 ∧ t.length > 2) := by
  unfold extractIngredients at h
  split at h
  · right
    right
    have hm := List.mem_filter.mp h
    rcases Bool.and_eq_true .. |>.mp hm.2 with ⟨_, h2⟩
    exact ⟨hm.1, of_decide_eq_true h2⟩
  · unfold ingredientsAfterM2 at h
    split at h
    · right
      left
      have hm := List.mem_filter.mp h
      have hne : t ≠ "" := by simpa using hm.2
      exact ⟨hm.1, length_pos_of_ne_empty t hne⟩
    · unfold ingredientsAfterM1 at h
      split at h
      · left
        have hm := List.mem_filter.mp h
        rcases Bool.and_eq_true .. |>.mp hm.2 with ⟨_, h2⟩
        exact ⟨hm.1, of_decide_eq_true h2⟩
      · exact absurd h (List.not_mem_nil t)

/-- Claim C7 counterexample: on a page where only strategy 2 fires, the
one-character candidate `"x"` is kept — strategy 2 keeps any non-empty
text, so "length > 1 under strategies 1 and 2" fails. -/
theorem ingredient_threshold_cex :
    (scrape_recipe_details cexIngredientPage).ingredients = ["x"] ∧
    ¬ ("x".length > 1) := by decide

/-- Claim C7 amended: a kept candidate satisfies its own strategy's
threshold — length > 1 under strategy 1, merely non-empty (length ≥ 1)
under strategy 2, length > 2 under strategy 3 — and the returned
ingredient list never has more than 20 elements. -/
theorem ingredient_thresholds (p : RecipePage) :
    (∀ t ∈ (scrape_recipe_details p).ingredients,
      (t ∈ p.ingredientsM1 ∧ t.length > 1) ∨
      (t ∈ p.ingredientsM2 ∧ 1 ≤ t.length) ∨
      (t ∈ p.ingredientsM3 ∧ t.length > 2)) ∧
    (scrape_recipe_details p).ingredients.length ≤ 20 := by
  have hing : (scrape_recipe_details p).ingredients =
      if extractIngredients p ≠ [] then (extractIngredients p).take 20
      else [] := rfl
  constructor
  · intro t ht
    rw [hing] at ht
    have ht' : t ∈ extractIngredients p := by
      by_cases hne : extractIngredients p ≠ []
      · rw [if_pos hne] at ht
        exact List.take_subset _ _ ht
      · rw [if_neg hne] at ht
        exact absurd ht (List.not_mem_nil t)
    exact mem_extractIngredients p t ht'
  · rw [hing]
    split
    · rw [List.length_take]
      exact min_le_left _ _
    · simp

/-- Witness for C7 amended at the concrete strategy-2 page. -/
theorem ingredient_thresholds_witness :
    ((("x" : String) ∈ cexIngredientPage.ingredientsM1 ∧
        "x".length > 1) ∨
      (("x" : String) ∈ cexIngredientPage.ingredientsM2 ∧
        1 ≤ "x".length) ∨
      (("x" : String) ∈ cexIngredientPage.ingredientsM3 ∧
        "x".length > 2)) ∧
    (scrape_recipe_details cexIngredientPage).ingredients.length ≤ 20 :=
  ⟨(ingredient_thresholds cexIngredientPage).1 "x" (by decide),
   (ingredient_thresholds cexIngredientPage).2⟩

/-! ## Candidate extraction (claim C8) -/

/-- Loop invariant of the card loop: accumulated ids are distinct and
recorded in `seen_ids`, and fewer than 15 recipes are accumulated, so the
final list has distinct ids and at most 15 entries. -/
theorem processCards_invariant (cards : List Card) :
    ∀ (seen : List String) (acc : List SRecipe),
      (acc.map SRecipe.id).Nodup →
      (∀ rid ∈ acc.map SRecipe.id, rid ∈ seen) →
      acc.length ≤ 14 →
      ((processCards cards seen acc).map SRecipe.id).Nodup ∧
        (processCards cards seen acc).length ≤ 15 := by
  induction cards with
  | nil =>
    intro seen acc hn hsub hlen
    exact ⟨hn, Nat.le_trans hlen (by norm_num)⟩
  | cons c rest ih =>
    intro seen acc hn hsub hlen
    simp only [processCards]
    split
    · exact ih seen acc hn hsub hlen
    · split
      · exact ih seen acc hn hsub hlen
      · next hseen =>
        have hnotin : computeId c.href ∉ seen := by
          intro hm
          exact hseen (by simpa using hm)
        have hnew : ∀ acc', acc' = acc ++
            [mkSRecipe (computeId c.href) (resolveTitle c c.href) c.href c]
            → (acc'.map SRecipe.id).Nodup ∧
              (∀ rid ∈ acc'.map SRecipe.id,
                rid ∈ computeId c.href :: seen) ∧
              acc'.length = acc.length + 1 := by
          intro acc' hacc'
          subst hacc'
          refine ⟨?_, ?_, by simp⟩
          · rw [List.map_append]
            refine List.Nodup.append hn (List.nodup_singleton _) ?_
            intro a ha hb
            have hb' : a = computeId c.href := by simpa using hb
            exact hnotin (hb' ▸ hsub a ha)
          · intro rid hrid
            rw [List.map_append] at hrid
            rcases List.mem_append.mp hrid with h | h
            · exact List.mem_cons_of_mem _ (hsub rid h)
            · have : rid = computeId c.href := by simpa using h
              rw [this]
              exact List.mem_cons_self _ _
        split
        · split
          · next h15 =>
            obtain ⟨hn', _, hlen'⟩ := hnew _ rfl
            refine ⟨hn', ?_⟩
            rw [hlen']
            omega
          · next h15 =>
            obtain ⟨hn', hsub', hlen'⟩ := hnew _ rfl
            apply ih
            · exact hn'
            · exact hsub'
            · rw [List.length_append] at h15
              simp only [List.length_singleton] at h15
              omega
        · apply ih (computeId c.href :: seen) acc hn ?_ hlen
          intro rid hrid
          exact List.mem_cons_of_mem _ (hsub rid hrid)

/-- Claim C8: for every search-results markup, the candidate extractor
returns recipes with pairwise distinct ids, at most 15 of them. -/
theorem candidate_ids_unique_capped (p : SearchPage) :
    ((scrape_allrecipes p).map SRecipe.id).Nodup ∧
    (scrape_allrecipes p).length ≤ 15 := by
  unfold scrape_allrecipes
  exact processCards_invariant _ [] [] List.nodup_nil
    (by intro rid h; exact absurd h (List.not_mem_nil rid)) (by norm_num)

/-- Witness for C8 at a concrete page with a duplicated card. -/
theorem candidate_ids_unique_capped_witness :
    ((scrape_allrecipes cexSearchPage).map SRecipe.id).Nodup ∧
    (scrape_allrecipes cexSearchPage).length ≤ 15 :=
  candidate_ids_unique_capped cexSearchPage

end DangDishes
